import Mathlib

/-!
Shallow embedding of the libnss marshalling core, translated from
src/libnss/src/interop.rs and src/libnss/src/host.rs.

Memory is modelled at byte granularity: the caller-supplied region bound to a
CBuffer is a list of byte cells, and raw pointers into that region are
modelled as offsets from its start (the base address cancels out of every
property of interest, so offset 0 denotes the start of the region).
Pointer-sized slots are ptrSize = 8 bytes wide and are stored in
little-endian byte order, as on the 64-bit targets the crate builds for.
Rust panics (buffer exhaustion, interior NUL, next on a closed iterator)
are modelled as Option.none results.
-/

namespace LibnssProof

/-- Size of a C pointer: mem size_of of a mut pointer in the source, which is
8 on the 64-bit targets. -/
def ptrSize : Nat := 8

/-- memcpy of a list of bytes into a memory region at a given offset.
Writes that fall outside the region are dropped (List.set is the identity out
of bounds); every write performed by the embedded code is in bounds. -/
def writeBytes (m : List Nat) (off : Nat) : List Nat → List Nat
  | [] => m
  | b :: bs => writeBytes (m.set off b) (off + 1) bs

/-- Read n bytes of a memory region starting at a given offset (cells outside
the region read as 0). -/
def readBytes (m : List Nat) : Nat → Nat → List Nat
  | _, 0 => []
  | off, n + 1 => m.getD off 0 :: readBytes m (off + 1) n

/-- Little-endian byte image of a machine word of the given width. -/
def leBytes : Nat → Nat → List Nat
  | 0, _ => []
  | k + 1, v => v % 256 :: leBytes k (v / 256)

/-- The 8 little-endian bytes of a stored pointer value. -/
def le8 (v : Nat) : List Nat := leBytes 8 v

/-- Value of a little-endian byte sequence. -/
def deBytes : List Nat → Nat
  | [] => 0
  | a :: l => a + 256 * deBytes l

/-- Decode an 8-byte pointer slot back to the pointer value it stores. -/
def de8 (l : List Nat) : Nat := deBytes l

/-- Total arena footprint of a list of NUL-terminated strings: each string
occupies its length plus one byte for the terminator. -/
def strsSize : List (List Nat) → Nat
  | [] => 0
  | s :: ss => (s.length + 1) + strsSize ss

/-- NssStatus from interop.rs: the five outcome codes crossing the ABI. -/
inductive NssStatus
  | TryAgain
  | Unavail
  | NotFound
  | Success
  | Return
deriving DecidableEq

/-- NssStatus::to_c from interop.rs. -/
def NssStatus.to_c : NssStatus → Int
  | .TryAgain => -2
  | .Unavail => -1
  | .NotFound => 0
  | .Success => 1
  | .Return => 2

/-- Iterator of interop.rs (renamed to avoid the core library name): a
closed cursor holds none, an open cursor holds the queue of pending items.
The VecDeque is modelled as a list popped at the front. -/
structure NssIterator (T : Type) where
  items : Option (List T)
deriving DecidableEq

/-- Iterator::new. -/
def NssIterator.new (T : Type) : NssIterator T := { items := none }

/-- Iterator::open: loads a full result set, replacing any previous queue. -/
def NssIterator.open' (it : NssIterator T) (items : List T) : NssIterator T :=
  { it with items := some items }

/-- Iterator::next: pops the front of the queue while open; calling it on a
closed iterator panics in the source, modelled as none. -/
def NssIterator.next : NssIterator T → Option (Option T × NssIterator T)
  | ⟨some []⟩ => some (none, ⟨some []⟩)
  | ⟨some (x :: q)⟩ => some (some x, ⟨some q⟩)
  | ⟨none⟩ => none

/-- Iterator::close: discards the queue. -/
def NssIterator.close (it : NssIterator T) : NssIterator T :=
  { it with items := none }

/-- Returned items of a run of n next() calls starting from a given cursor
state (stopping if a call panics). -/
def runNexts (T : Type) : Nat → NssIterator T → List T
  | 0, _ => []
  | n + 1, it =>
    match it.next with
    | some (some x, it2) => x :: runNexts T n it2
    | some (none, it2) => runNexts T n it2
    | none => []

/-- CBuffer from interop.rs.  The start pointer is the origin of the offset
space, so only the region contents, the cursor offset (pos), the remaining
capacity (free) and the total length (len) are carried. -/
structure CBuffer where
  mem : List Nat
  pos : Nat
  free : Nat
  len : Nat
deriving DecidableEq

/-- CBuffer::new: binds a caller-supplied region; the region contents are the
list m and its byte length is both the free capacity and the total length. -/
def CBuffer.new (m : List Nat) : CBuffer :=
  { mem := m, pos := 0, free := m.length, len := m.length }

/-- CBuffer::clear: memset of the whole region to 0.  The cursor and the
remaining capacity are untouched. -/
def CBuffer.clear (b : CBuffer) : CBuffer :=
  { b with mem := List.replicate b.len 0 }

/-- CBuffer::write_str.  CString::new fails on an interior NUL (the expect
panics); a capacity shortfall panics; otherwise exactly the string bytes are
copied (the terminator byte of the span is never written, the code relies on
the caller having cleared the region) and the cursor advances over the
string plus its terminator slot.  Returns the offset of the written span. -/
def CBuffer.write_str (b : CBuffer) (s : List Nat) : Option (Nat × CBuffer) :=
  if s.contains 0 then none
  else if b.free < s.length + 1 then none
  else some (b.pos,
    { b with
      mem := writeBytes b.mem b.pos s
      pos := b.pos + (s.length + 1)
      free := b.free - (s.length + 1) })

/-- CBuffer::reserve: returns the current cursor offset and advances it by
the requested length, panicking if the remaining capacity is short. -/
def CBuffer.reserve (b : CBuffer) (n : Nat) : Option (Nat × CBuffer) :=
  if b.free < n then none
  else some (b.pos, { b with pos := b.pos + n, free := b.free - n })

/-- The loop of CBuffer::write_strs: for each string, write it via write_str
and store the returned pointer into the next slot of the pointer array. -/
def writeStrsLoop (b : CBuffer) (slot : Nat) : List (List Nat) → Option CBuffer
  | [] => some b
  | s :: ss =>
    match b.write_str s with
    | none => none
    | some (p, b1) =>
      writeStrsLoop { b1 with mem := writeBytes b1.mem slot (le8 p) } (slot + ptrSize) ss

/-- CBuffer::write_strs: reserve the pointer array (one slot per string plus
a sentinel), write each string storing its pointer into the array, then
memset the full sentinel slot to zero.  Returns the array offset. -/
def CBuffer.write_strs (b : CBuffer) (ss : List (List Nat)) : Option (Nat × CBuffer) :=
  match b.reserve (ptrSize * (ss.length + 1)) with
  | none => none
  | some (vecStart, b1) =>
    match writeStrsLoop b1 vecStart ss with
    | none => none
    | some b2 =>
      some (vecStart,
        { b2 with mem := writeBytes b2.mem (vecStart + ptrSize * ss.length) (List.replicate ptrSize 0) })

/-- AF_UNSPEC from libc (Linux value). -/
def AF_UNSPEC : Int := 0

/-- AF_INET from libc (Linux value). -/
def AF_INET : Int := 2

/-- AF_INET6 from libc (Linux value). -/
def AF_INET6 : Int := 10

/-- A fixed-width IPv4 address value: its four octets. -/
abbrev Ipv4Addr := { l : List Nat // l.length = 4 }

/-- A fixed-width IPv6 address value: its sixteen octets. -/
abbrev Ipv6Addr := { l : List Nat // l.length = 16 }

/-- IpAddr from the standard library, as consumed by the by-address hook. -/
inductive IpAddr
  | V4 (a : Ipv4Addr)
  | V6 (a : Ipv6Addr)

/-- AddressFamily from host.rs. -/
inductive AddressFamily
  | IPv4
  | IPv6
  | Unspecified
deriving DecidableEq

/-- Addresses from host.rs: a single-family collection of addresses. -/
inductive Addresses
  | V4 (addrs : List Ipv4Addr)
  | V6 (addrs : List Ipv6Addr)

/-- Host from host.rs.  Strings are carried as their UTF-8 byte sequences. -/
structure Host where
  name : List Nat
  aliases : List (List Nat)
  addresses : Addresses

/-- Number of addresses in the record. -/
def Addresses.count : Addresses → Nat
  | .V4 l => l.length
  | .V6 l => l.length

/-- Fixed per-address byte width: 4 for IPv4, 16 for IPv6. -/
def Addresses.width : Addresses → Nat
  | .V4 _ => 4
  | .V6 _ => 16

/-- The family tag written to the header for this variant. -/
def Addresses.family : Addresses → Int
  | .V4 _ => AF_INET
  | .V6 _ => AF_INET6

/-- The raw octet sequences of the addresses, in order. -/
def Addresses.octs : Addresses → List (List Nat)
  | .V4 l => l.map Subtype.val
  | .V6 l => l.map Subtype.val

/-- CHost from host.rs: the caller-provided header structure.  Pointer
fields hold offsets into the bound region. -/
structure CHost where
  name : Nat
  h_aliases : Nat
  h_addrtype : Int
  h_length : Int
  h_addr_list : Nat
deriving DecidableEq

/-- The address-writing loop of Host::to_c_hostent: for each address,
reserve addr_len bytes, memcpy the octets into them, and store the span
pointer into the next slot of the address pointer array. -/
def writeAddrsLoop (b : CBuffer) (slot : Nat) (addrLen : Nat) : List (List Nat) → Option CBuffer
  | [] => some b
  | o :: os =>
    match b.reserve addrLen with
    | none => none
    | some (p, b1) =>
      let b2 := { b1 with mem := writeBytes b1.mem p o }
      writeAddrsLoop { b2 with mem := writeBytes b2.mem slot (le8 p) } (slot + ptrSize) addrLen os

/-- Host::to_c_hostent: write the name, then the alias pointer array with the
alias strings, then reserve the address pointer array, then write each
address and its pointer, and finally memset a single byte of the sentinel
slot of the address array (the source zeroes only 1 byte there). -/
def Host.to_c_hostent (h : Host) (buffer : CBuffer) : Option (CHost × CBuffer) :=
  match buffer.write_str h.name with
  | none => none
  | some (namePtr, b1) =>
    match b1.write_strs h.aliases with
    | none => none
    | some (aliasesPtr, b2) =>
      match b2.reserve (ptrSize * (h.addresses.count + 1)) with
      | none => none
      | some (arrayPos, b3) =>
        match writeAddrsLoop b3 arrayPos h.addresses.width h.addresses.octs with
        | none => none
        | some b4 =>
          some ({ name := namePtr, h_aliases := aliasesPtr,
                  h_addrtype := h.addresses.family,
                  h_length := (h.addresses.width : Int),
                  h_addr_list := arrayPos },
                { b4 with mem := writeBytes b4.mem (arrayPos + ptrSize * h.addresses.count) [0] })

/-- Offset of the alias pointer array in the arena: right after the name
span (name bytes plus terminator). -/
def Host.aliasArrOff (h : Host) : Nat := h.name.length + 1

/-- Offset of the first alias string: right after the alias pointer array. -/
def Host.aliasBytesOff (h : Host) : Nat :=
  h.aliasArrOff + ptrSize * (h.aliases.length + 1)

/-- Offset of the address pointer array: right after the alias strings. -/
def Host.addrArrOff (h : Host) : Nat := h.aliasBytesOff + strsSize h.aliases

/-- Offset of the first raw address span: right after the address array. -/
def Host.addrBytesOff (h : Host) : Nat :=
  h.addrArrOff + ptrSize * (h.addresses.count + 1)

/-- Exact number of arena bytes one marshalling pass of the record uses. -/
def Host.requiredSize (h : Host) : Nat :=
  h.addrBytesOff + h.addresses.width * h.addresses.count

/-- The shared tail of the entry points: marshal the looked-up record into
the freshly bound and cleared buffer on a hit, or report NotFound. -/
def hostLookupResult (host : Option Host) (m : List Nat) : Option (Int × Option (CHost × CBuffer)) :=
  match host with
  | some val =>
    match Host.to_c_hostent val ((CBuffer.new m).clear) with
    | some (he, b) => some (NssStatus.Success.to_c, some (he, b))
    | none => none
  | none => some (NssStatus.NotFound.to_c, none)

/-- Rebuild an Ipv4Addr from the first four raw bytes the caller passed (the
caller contract supplies at least len readable bytes; shorter model inputs
are zero padded). -/
def bytesToIp4 (addr : List Nat) : Ipv4Addr :=
  ⟨(addr ++ List.replicate 4 0).take 4, by
    simp [List.length_take, List.length_append, List.length_replicate]⟩

/-- Rebuild an Ipv6Addr from the first sixteen raw bytes passed in. -/
def bytesToIp6 (addr : List Nat) : Ipv6Addr :=
  ⟨(addr ++ List.replicate 16 0).take 16, by
    simp [List.length_take, List.length_append, List.length_replicate]⟩

/-- The gethostbyaddr_r entry point of host.rs, parameterised by the
get_host_by_addr hook.  Only (4, AF_INET) and (16, AF_INET6) length/format
pairs are accepted; every other pair is rejected as NotFound before the
buffer is even bound. -/
def gethostbyaddr_r (get_host_by_addr : IpAddr → Option Host)
    (addr : List Nat) (len : Nat) (format : Int) (m : List Nat) :
    Option (Int × Option (CHost × CBuffer)) :=
  if len = 4 ∧ format = AF_INET then
    hostLookupResult (get_host_by_addr (.V4 (bytesToIp4 addr))) m
  else if len = 16 ∧ format = AF_INET6 then
    hostLookupResult (get_host_by_addr (.V6 (bytesToIp6 addr))) m
  else some (NssStatus.NotFound.to_c, none)

/-- Whether a continuation byte of a UTF-8 sequence is well formed. -/
def isCont (b : Nat) : Bool := 0x80 ≤ b && b ≤ 0xBF

/-- UTF-8 validity of a byte sequence, as checked by str::from_utf8. -/
def isValidUtf8 : List Nat → Bool
  | [] => true
  | b :: bs =>
    if b ≤ 0x7F then isValidUtf8 bs
    else
      match bs with
      | [] => false
      | b1 :: bs1 =>
        if 0xC2 ≤ b && b ≤ 0xDF then isCont b1 && isValidUtf8 bs1
        else
          match bs1 with
          | [] => false
          | b2 :: bs2 =>
            if b = 0xE0 then (0xA0 ≤ b1 && b1 ≤ 0xBF) && isCont b2 && isValidUtf8 bs2
            else if (0xE1 ≤ b && b ≤ 0xEC) || b = 0xEE || b = 0xEF then
              isCont b1 && isCont b2 && isValidUtf8 bs2
            else if b = 0xED then (0x80 ≤ b1 && b1 ≤ 0x9F) && isCont b2 && isValidUtf8 bs2
            else
              match bs2 with
              | [] => false
              | b3 :: bs3 =>
                if b = 0xF0 then (0x90 ≤ b1 && b1 ≤ 0xBF) && isCont b2 && isCont b3 && isValidUtf8 bs3
                else if 0xF1 ≤ b && b ≤ 0xF3 then
                  isCont b1 && isCont b2 && isCont b3 && isValidUtf8 bs3
                else if b = 0xF4 then (0x80 ≤ b1 && b1 ≤ 0x8F) && isCont b2 && isCont b3 && isValidUtf8 bs3
                else false

/-- The gethostbyname2_r entry point of host.rs, parameterised by the
get_host_by_name hook.  The name arrives as the raw bytes of the C string;
on invalid UTF-8 the call reports NotFound.  The AF_UNSPEC arm tries the
IPv4 family first and falls back to IPv6 only when it produced nothing. -/
def gethostbyname2_r (get_host_by_name : List Nat → AddressFamily → Option Host)
    (name : List Nat) (family : Int) (m : List Nat) :
    Option (Int × Option (CHost × CBuffer)) :=
  if isValidUtf8 name then
    if family = AF_INET then hostLookupResult (get_host_by_name name .IPv4) m
    else if family = AF_INET6 then hostLookupResult (get_host_by_name name .IPv6) m
    else if family = AF_UNSPEC then
      hostLookupResult
        (match get_host_by_name name .IPv4 with
         | none => get_host_by_name name .IPv6
         | val => val) m
    else some (NssStatus.NotFound.to_c, none)
  else some (NssStatus.NotFound.to_c, none)

/-- The gethostbyname_r entry point of host.rs: a direct delegation to
gethostbyname2_r with the AF_UNSPEC family constant. -/
def gethostbyname_r (get_host_by_name : List Nat → AddressFamily → Option Host)
    (name : List Nat) (m : List Nat) :
    Option (Int × Option (CHost × CBuffer)) :=
  gethostbyname2_r get_host_by_name name AF_UNSPEC m

/-- The three Arena Writer operations of the spec, used to state the
sequence invariant. -/
inductive BufOp
  | reserveOp (n : Nat)
  | writeStrOp (s : List Nat)
  | writeStrsOp (ss : List (List Nat))

/-- Effect of one Arena Writer operation on the buffer state. -/
def BufOp.apply : BufOp → CBuffer → Option CBuffer
  | .reserveOp n, b => (b.reserve n).map Prod.snd
  | .writeStrOp s, b => (b.write_str s).map Prod.snd
  | .writeStrsOp ss, b => (b.write_strs ss).map Prod.snd

/-- Number of arena bytes one operation consumes when it succeeds. -/
def BufOp.written : BufOp → Nat
  | .reserveOp n => n
  | .writeStrOp s => s.length + 1
  | .writeStrsOp ss => ptrSize * (ss.length + 1) + strsSize ss

/-- Run a sequence of Arena Writer operations, stopping at the first panic. -/
def runOps : List BufOp → CBuffer → Option CBuffer
  | [], b => some b
  | op :: ops, b =>
    match op.apply b with
    | none => none
    | some b2 => runOps ops b2

/-- One marshalling pass exactly as every entry point performs it: bind a
fresh CBuffer over the caller region, clear it, then marshal the record. -/
def marshalPass (h : Host) (m : List Nat) : Option (CHost × CBuffer) :=
  Host.to_c_hostent h ((CBuffer.new m).clear)

/-- A sample IPv4 address used by concrete witnesses. -/
def ip1 : Ipv4Addr := ⟨[10, 0, 0, 1], rfl⟩

/-- A sample host record: name "hi", no aliases, one IPv4 address. -/
def demoHost : Host :=
  { name := [104, 105], aliases := [], addresses := .V4 [ip1] }

/-- A sample host record with one alias: name "a", alias "www". -/
def demoHost2 : Host :=
  { name := [97], aliases := [[119, 119, 119]], addresses := .V4 [ip1] }

/-- A sample lookup hook that has an IPv4 record for every name. -/
def demoHook : List Nat → AddressFamily → Option Host :=
  fun _ f => if f = AddressFamily.IPv4 then some demoHost else none

/-- A sample caller region, deliberately nonzero to exercise the clear. -/
def demoRegion : List Nat := List.replicate 40 7

/-- A larger sample caller region for the record with an alias. -/
def demoRegion2 : List Nat := List.replicate 48 7

/-- Marshalling the sample record into the sample region. -/
def demoMarshal : Option (CHost × CBuffer) := marshalPass demoHost demoRegion

/-- Marshalling the aliased sample record into the larger region. -/
def demoMarshal2 : Option (CHost × CBuffer) := marshalPass demoHost2 demoRegion2

/-- Header produced for the sample record. -/
def demoHE : CHost := (demoMarshal.getD (⟨0, 0, 0, 0, 0⟩, ⟨[], 0, 0, 0⟩)).1

/-- Final buffer produced for the sample record. -/
def demoBuf : CBuffer := (demoMarshal.getD (⟨0, 0, 0, 0, 0⟩, ⟨[], 0, 0, 0⟩)).2

/-- Header produced for the aliased sample record. -/
def demoHE2 : CHost := (demoMarshal2.getD (⟨0, 0, 0, 0, 0⟩, ⟨[], 0, 0, 0⟩)).1

/-- Final buffer produced for the aliased sample record. -/
def demoBuf2 : CBuffer := (demoMarshal2.getD (⟨0, 0, 0, 0, 0⟩, ⟨[], 0, 0, 0⟩)).2

/-! ## Byte-level helper lemmas -/

lemma getD_set (m : List Nat) (i : Nat) (x : Nat) (j : Nat) :
    (m.set i x).getD j 0 = if i = j ∧ i < m.length then x else m.getD j 0 := by
  induction m generalizing i j with
  | nil => simp [List.set]
  | cons a t ih =>
    cases i with
    | zero =>
      cases j with
      | zero => simp
      | succ j2 => simp
    | succ i2 =>
      cases j with
      | zero => simp
      | succ j2 =>
        simp only [List.set, List.getD_cons_succ, List.length_cons]
        rw [ih]
        by_cases h : i2 = j2 ∧ i2 < t.length
        · rw [if_pos h, if_pos (by omega)]
        · rw [if_neg h, if_neg (by omega)]

lemma writeBytes_length (s : List Nat) : ∀ (m : List Nat) (off : Nat),
    (writeBytes m off s).length = m.length := by
  induction s with
  | nil => intro m off; rfl
  | cons b bs ih =>
    intro m off
    simp only [writeBytes, ih, List.length_set]

lemma getD_writeBytes (s : List Nat) : ∀ (m : List Nat) (off j : Nat),
    (writeBytes m off s).getD j 0 =
      if off ≤ j ∧ j < off + s.length ∧ j < m.length then s.getD (j - off) 0
      else m.getD j 0 := by
  induction s with
  | nil =>
    intro m off j
    simp only [writeBytes, List.length_nil]
    rw [if_neg]
    omega
  | cons b bs ih =>
    intro m off j
    simp only [writeBytes]
    rw [ih, List.length_set, getD_set]
    by_cases h1 : off + 1 ≤ j ∧ j < off + 1 + bs.length ∧ j < m.length
    · rw [if_pos h1, if_pos (by simp only [List.length_cons]; omega)]
      have : j - off = (j - (off + 1)) + 1 := by omega
      rw [this, List.getD_cons_succ]
    · rw [if_neg h1]
      by_cases h2 : off = j ∧ off < m.length
      · rw [if_pos h2, if_pos (by simp only [List.length_cons]; omega)]
        have : j - off = 0 := by omega
        rw [this, List.getD_cons_zero]
      · rw [if_neg h2, if_neg (by simp only [List.length_cons]; omega)]

lemma getD_writeBytes_lo {off j : Nat} (s : List Nat) (m : List Nat)
    (h : j < off) : (writeBytes m off s).getD j 0 = m.getD j 0 := by
  rw [getD_writeBytes]; rw [if_neg]; omega

lemma getD_writeBytes_hi {off j : Nat} (s : List Nat) (m : List Nat)
    (h : off + s.length ≤ j) : (writeBytes m off s).getD j 0 = m.getD j 0 := by
  rw [getD_writeBytes]; rw [if_neg]; omega

lemma getD_writeBytes_in {off j : Nat} (s : List Nat) (m : List Nat)
    (h1 : off ≤ j) (h2 : j < off + s.length) (h3 : off + s.length ≤ m.length) :
    (writeBytes m off s).getD j 0 = s.getD (j - off) 0 := by
  rw [getD_writeBytes]; rw [if_pos]; omega

lemma getD_replicate_zero (L j : Nat) : (List.replicate L 0).getD j 0 = 0 := by
  induction L generalizing j with
  | zero => rfl
  | succ n ih =>
    cases j with
    | zero => rfl
    | succ j2 => simp only [List.replicate, List.getD_cons_succ]; exact ih j2

lemma readBytes_congr {m1 m2 : List Nat} (off n : Nat)
    (h : ∀ i, i < n → m1.getD (off + i) 0 = m2.getD (off + i) 0) :
    readBytes m1 off n = readBytes m2 off n := by
  induction n generalizing off with
  | zero => rfl
  | succ k ih =>
    simp only [readBytes]
    have h0 : m1.getD off 0 = m2.getD off 0 := by simpa using h 0 (by omega)
    have ht : readBytes m1 (off + 1) k = readBytes m2 (off + 1) k := by
      refine ih (off + 1) fun i hi => ?_
      rw [show off + 1 + i = off + (i + 1) from by omega]
      exact h (i + 1) (by omega)
    rw [h0, ht]

lemma readBytes_zero_of (m : List Nat) (off n : Nat)
    (h : ∀ i, i < n → m.getD (off + i) 0 = 0) :
    readBytes m off n = List.replicate n 0 := by
  induction n generalizing off with
  | zero => rfl
  | succ k ih =>
    simp only [readBytes, List.replicate]
    have h0 : m.getD off 0 = 0 := by simpa using h 0 (by omega)
    have ht : readBytes m (off + 1) k = List.replicate k 0 := by
      refine ih (off + 1) fun i hi => ?_
      rw [show off + 1 + i = off + (i + 1) from by omega]
      exact h (i + 1) (by omega)
    rw [h0, ht]

lemma readBytes_writeBytes (s : List Nat) : ∀ (m : List Nat) (off : Nat),
    off + s.length ≤ m.length →
    readBytes (writeBytes m off s) off s.length = s := by
  induction s with
  | nil => intro m off _; rfl
  | cons b bs ih =>
    intro m off h
    simp only [List.length_cons] at h
    simp only [writeBytes, List.length_cons, readBytes]
    have h0 : (writeBytes (m.set off b) (off + 1) bs).getD off 0 = b := by
      rw [getD_writeBytes_lo bs _ (by omega), getD_set, if_pos ⟨rfl, by omega⟩]
    have ht : readBytes (writeBytes (m.set off b) (off + 1) bs) (off + 1) bs.length = bs :=
      ih (m.set off b) (off + 1) (by rw [List.length_set]; omega)
    rw [h0, ht]

lemma readBytes_snoc (m : List Nat) (off n : Nat) :
    readBytes m off (n + 1) = readBytes m off n ++ [m.getD (off + n) 0] := by
  induction n generalizing off with
  | zero => simp [readBytes]
  | succ k ih =>
    have h1 : readBytes m off (k + 1 + 1) = m.getD off 0 :: readBytes m (off + 1) (k + 1) := rfl
    have h2 : readBytes m off (k + 1) = m.getD off 0 :: readBytes m (off + 1) k := rfl
    rw [h1, ih (off + 1), h2]
    rw [show off + 1 + k = off + (k + 1) from by omega]
    rfl

lemma leBytes_length (k : Nat) : ∀ v, (leBytes k v).length = k := by
  induction k with
  | zero => intro v; rfl
  | succ n ih => intro v; simp [leBytes, ih]

lemma le8_length (v : Nat) : (le8 v).length = 8 := leBytes_length 8 v

lemma deBytes_leBytes (k : Nat) : ∀ v, deBytes (leBytes k v) = v % 256 ^ k := by
  induction k with
  | zero => intro v; simp [leBytes, deBytes, Nat.mod_one]
  | succ n ih =>
    intro v
    simp only [leBytes, deBytes, ih]
    rw [pow_succ, mul_comm (256 ^ n) 256, Nat.mod_mul]

lemma de8_le8 {v : Nat} (h : v < 2 ^ 64) : de8 (le8 v) = v := by
  have h2 : (256 : Nat) ^ 8 = 2 ^ 64 := by norm_num
  rw [de8, le8, deBytes_leBytes, h2, Nat.mod_eq_of_lt h]

lemma strsSize_take_le (ss : List (List Nat)) : ∀ i, strsSize (ss.take i) ≤ strsSize ss := by
  induction ss with
  | nil => intro i; simp
  | cons s t ih =>
    intro i
    cases i with
    | zero => simp [strsSize]
    | succ j =>
      simp only [List.take_succ_cons, strsSize]
      have := ih j
      omega

lemma strsSize_take_succ (ss : List (List Nat)) : ∀ i, i < ss.length →
    strsSize (ss.take (i + 1)) = strsSize (ss.take i) + (ss.getD i []).length + 1 := by
  induction ss with
  | nil => intro i hi; simp at hi
  | cons s t ih =>
    intro i hi
    cases i with
    | zero => simp [strsSize]
    | succ j =>
      simp only [List.take_succ_cons, strsSize, List.getD_cons_succ]
      rw [ih j (by simpa using hi)]
      omega

lemma octs_length (a : Addresses) : a.octs.length = a.count := by
  cases a <;> simp [Addresses.octs, Addresses.count]

lemma octs_width (a : Addresses) : ∀ o ∈ a.octs, o.length = a.width := by
  cases a <;> intro o ho <;> simp only [Addresses.octs, List.mem_map] at ho <;>
    obtain ⟨x, _, rfl⟩ := ho <;> exact x.2

/-! ## Stepwise accounting of the Arena Writer operations -/

lemma write_str_deltas {b : CBuffer} {s : List Nat} {p : Nat} {b2 : CBuffer}
    (h : b.write_str s = some (p, b2)) :
    p = b.pos ∧ b2.pos = b.pos + (s.length + 1) ∧ s.length + 1 ≤ b.free ∧
    b2.free + (s.length + 1) = b.free ∧ b2.len = b.len ∧
    b2.mem.length = b.mem.length ∧ b2.mem = writeBytes b.mem b.pos s ∧
    s.contains 0 = false := by
  unfold CBuffer.write_str at h
  by_cases h1 : s.contains 0 = true
  · rw [if_pos h1] at h; cases h
  · rw [if_neg h1] at h
    by_cases h2 : b.free < s.length + 1
    · rw [if_pos h2] at h; cases h
    · rw [if_neg h2] at h
      injection h with h3
      rw [Prod.mk.injEq] at h3
      obtain ⟨hp, hb⟩ := h3
      subst hp; subst hb
      refine ⟨rfl, rfl, by omega, by simp; omega, rfl, writeBytes_length s b.mem b.pos, rfl, ?_⟩
      simpa using h1

lemma reserve_deltas {b : CBuffer} {n : Nat} {p : Nat} {b2 : CBuffer}
    (h : b.reserve n = some (p, b2)) :
    p = b.pos ∧ b2.pos = b.pos + n ∧ n ≤ b.free ∧ b2.free + n = b.free ∧
    b2.len = b.len ∧ b2.mem = b.mem := by
  unfold CBuffer.reserve at h
  by_cases h1 : b.free < n
  · rw [if_pos h1] at h; cases h
  · rw [if_neg h1] at h
    injection h with h3
    rw [Prod.mk.injEq] at h3
    obtain ⟨hp, hb⟩ := h3
    subst hp; subst hb
    exact ⟨rfl, rfl, by omega, by simp; omega, rfl, rfl⟩

lemma writeStrsLoop_deltas : ∀ (ss : List (List Nat)) (b : CBuffer) (slot : Nat) (b2 : CBuffer),
    writeStrsLoop b slot ss = some b2 →
    b2.pos = b.pos + strsSize ss ∧ strsSize ss ≤ b.free ∧ b2.free + strsSize ss = b.free ∧
    b2.len = b.len ∧ b2.mem.length = b.mem.length := by
  intro ss
  induction ss with
  | nil =>
    intro b slot b2 h
    injection h with h2
    subst h2
    simp [strsSize]
  | cons s ss ih =>
    intro b slot b2 h
    simp only [writeStrsLoop] at h
    split at h
    · cases h
    · rename_i p b1 hws
      obtain ⟨hp, hpos1, hle, hfree1, hlen1, hmlen1, _, _⟩ := write_str_deltas hws
      obtain ⟨hpos2, hle2, hfree2, hlen2, hmlen2⟩ := ih _ _ _ h
      dsimp only at hpos2 hle2 hfree2 hlen2 hmlen2
      simp only [writeBytes_length] at hmlen2
      simp only [strsSize]
      refine ⟨by rw [hpos2, hpos1]; omega, by omega, by omega,
        by rw [hlen2, hlen1], by rw [hmlen2, hmlen1]⟩

lemma write_strs_deltas {b : CBuffer} {ss : List (List Nat)} {p : Nat} {b2 : CBuffer}
    (h : b.write_strs ss = some (p, b2)) :
    p = b.pos ∧ b2.pos = b.pos + (ptrSize * (ss.length + 1) + strsSize ss) ∧
    ptrSize * (ss.length + 1) + strsSize ss ≤ b.free ∧
    b2.free + (ptrSize * (ss.length + 1) + strsSize ss) = b.free ∧
    b2.len = b.len ∧ b2.mem.length = b.mem.length := by
  unfold CBuffer.write_strs at h
  split at h
  · cases h
  · rename_i q b1 hr
    split at h
    · cases h
    · rename_i bl hl
      injection h with h3
      rw [Prod.mk.injEq] at h3
      obtain ⟨hp, hb⟩ := h3
      subst hp; subst hb
      obtain ⟨hq, hpos1, hle1, hfree1, hlen1, hmem1⟩ := reserve_deltas hr
      obtain ⟨hpos2, hle2, hfree2, hlen2, hmlen2⟩ := writeStrsLoop_deltas _ _ _ _ hl
      rw [hmem1] at hmlen2
      refine ⟨hq, ?_, by omega, by simp only [writeBytes_length]; omega,
        by simp only [hlen2, hlen1], by simp only [writeBytes_length]; rw [hmlen2]⟩
      simp only [writeBytes_length]
      rw [hpos2, hpos1]; omega

lemma writeAddrsLoop_deltas : ∀ (os : List (List Nat)) (b : CBuffer) (slot w : Nat) (b2 : CBuffer),
    writeAddrsLoop b slot w os = some b2 →
    b2.pos = b.pos + w * os.length ∧ w * os.length ≤ b.free ∧
    b2.free + w * os.length = b.free ∧ b2.len = b.len ∧ b2.mem.length = b.mem.length := by
  intro os
  induction os with
  | nil =>
    intro b slot w b2 h
    injection h with h2
    subst h2
    simp
  | cons o os ih =>
    intro b slot w b2 h
    simp only [writeAddrsLoop] at h
    split at h
    · cases h
    · rename_i p b1 hr
      obtain ⟨hp, hpos1, hle1, hfree1, hlen1, hmem1⟩ := reserve_deltas hr
      obtain ⟨hpos2, hle2, hfree2, hlen2, hmlen2⟩ := ih _ _ _ _ h
      dsimp only at hpos2 hle2 hfree2 hlen2 hmlen2
      simp only [writeBytes_length] at hmlen2
      simp only [List.length_cons, Nat.mul_succ]
      rw [hmem1] at hmlen2
      refine ⟨by rw [hpos2, hpos1]; omega, by omega, by omega,
        by rw [hlen2, hlen1], by rw [hmlen2]⟩

lemma to_c_hostent_deltas {h : Host} {b : CBuffer} {he : CHost} {b2 : CBuffer}
    (hm : h.to_c_hostent b = some (he, b2)) :
    b2.len = b.len ∧ b2.mem.length = b.mem.length := by
  unfold Host.to_c_hostent at hm
  split at hm
  · cases hm
  · rename_i p1 c1 h1
    split at hm
    · cases hm
    · rename_i p2 c2 h2
      split at hm
      · cases hm
      · rename_i p3 c3 h3
        split at hm
        · cases hm
        · rename_i c4 h4
          injection hm with h5
          rw [Prod.mk.injEq] at h5
          obtain ⟨hhe, hb⟩ := h5
          subst hb
          obtain ⟨_, _, _, _, hl1, hml1, _, _⟩ := write_str_deltas h1
          obtain ⟨_, _, _, _, hl2, hml2⟩ := write_strs_deltas h2
          obtain ⟨_, _, _, _, hl3, hml3⟩ := reserve_deltas h3
          obtain ⟨_, _, _, hl4, hml4⟩ := writeAddrsLoop_deltas _ _ _ _ _ h4
          constructor
          · simp only [hl4, hl3, hl2, hl1]
          · simp only [writeBytes_length, hml4, hml3, hml2, hml1]

lemma bufOp_deltas {op : BufOp} {b b2 : CBuffer} (h : op.apply b = some b2) :
    op.written ≤ b.free ∧ b2.pos = b.pos + op.written ∧
    b2.free + op.written = b.free ∧ b2.len = b.len := by
  cases op with
  | reserveOp n =>
    simp only [BufOp.apply] at h
    rcases hr : b.reserve n with _ | ⟨p, bb⟩
    · rw [hr] at h; cases h
    · rw [hr] at h
      injection h with h2
      subst h2
      obtain ⟨_, h3, h4, h5, h6, _⟩ := reserve_deltas hr
      exact ⟨h4, h3, h5, h6⟩
  | writeStrOp s =>
    simp only [BufOp.apply] at h
    rcases hr : b.write_str s with _ | ⟨p, bb⟩
    · rw [hr] at h; cases h
    · rw [hr] at h
      injection h with h2
      subst h2
      obtain ⟨_, h3, h4, h5, h6, _, _, _⟩ := write_str_deltas hr
      exact ⟨h4, h3, h5, h6⟩
  | writeStrsOp ss =>
    simp only [BufOp.apply] at h
    rcases hr : b.write_strs ss with _ | ⟨p, bb⟩
    · rw [hr] at h; cases h
    · rw [hr] at h
      injection h with h2
      subst h2
      obtain ⟨_, h3, h4, h5, h6, _⟩ := write_strs_deltas hr
      exact ⟨h4, h3, h5, h6⟩

lemma runOps_inv : ∀ (ops : List BufOp) (b b2 : CBuffer),
    b.pos + b.free = b.len → runOps ops b = some b2 →
    b2.pos + b2.free = b2.len ∧ b2.len = b.len := by
  intro ops
  induction ops with
  | nil =>
    intro b b2 hinv h
    injection h with h2
    subst h2
    exact ⟨hinv, rfl⟩
  | cons op ops ih =>
    intro b b2 hinv h
    simp only [runOps] at h
    rcases ha : op.apply b with _ | bm
    · rw [ha] at h; cases h
    · rw [ha] at h
      obtain ⟨hd1, hd2, hd3, hd4⟩ := bufOp_deltas ha
      obtain ⟨hi1, hi2⟩ := ih bm b2 (by omega) h
      exact ⟨hi1, by rw [hi2, hd4]⟩

lemma runNexts_mem (T : Type) : ∀ (n : Nat) (l : List T) (x : T),
    x ∈ runNexts T n ⟨some l⟩ → x ∈ l := by
  intro n
  induction n with
  | zero => intro l x hx; cases hx
  | succ k ih =>
    intro l x hx
    cases l with
    | nil =>
      simp only [runNexts, NssIterator.next] at hx
      exact absurd (ih [] x hx) (by simp)
    | cons a t =>
      simp only [runNexts, NssIterator.next] at hx
      rcases List.mem_cons.mp hx with h | h
      · exact h ▸ List.mem_cons_self a t
      · exact List.mem_cons_of_mem a (ih t x h)

/-! ## Exact layout characterisation of the marshalling loops -/

lemma writeStrsLoop_spec :
    ∀ (ss : List (List Nat)) (b : CBuffer) (slot : Nat),
      (∀ s ∈ ss, s.contains 0 = false) →
      strsSize ss ≤ b.free →
      slot + 8 * ss.length ≤ b.pos →
      b.pos + b.free ≤ b.mem.length →
      ∃ b2, writeStrsLoop b slot ss = some b2 ∧
        b2.pos = b.pos + strsSize ss ∧
        b2.free + strsSize ss = b.free ∧
        b2.len = b.len ∧
        b2.mem.length = b.mem.length ∧
        (∀ j, j < slot → b2.mem.getD j 0 = b.mem.getD j 0) ∧
        (∀ j, slot + 8 * ss.length ≤ j → j < b.pos → b2.mem.getD j 0 = b.mem.getD j 0) ∧
        (∀ j, b.pos + strsSize ss ≤ j → b2.mem.getD j 0 = b.mem.getD j 0) ∧
        (∀ i, i < ss.length →
          readBytes b2.mem (slot + 8 * i) 8 = le8 (b.pos + strsSize (ss.take i)) ∧
          readBytes b2.mem (b.pos + strsSize (ss.take i)) (ss.getD i []).length = ss.getD i [] ∧
          b2.mem.getD (b.pos + strsSize (ss.take i) + (ss.getD i []).length) 0
            = b.mem.getD (b.pos + strsSize (ss.take i) + (ss.getD i []).length) 0) := by
  intro ss
  induction ss with
  | nil =>
    intro b slot hnul hfree hslot hmem
    refine ⟨b, rfl, by simp [strsSize], by simp [strsSize], rfl, rfl,
      fun j _ => rfl, fun j _ _ => rfl, fun j _ => rfl, fun i hi => by simp at hi⟩
  | cons s ss ih =>
    intro b slot hnul hfree hslot hmem
    simp only [strsSize] at hfree
    simp only [List.length_cons] at hslot
    have hs0 : s.contains 0 = false := hnul s (List.mem_cons_self s ss)
    have hfits : ¬ b.free < s.length + 1 := by omega
    have hslot8 : slot + 8 * ss.length + 8 ≤ b.pos := by omega
    have hws : b.write_str s
        = some (b.pos, ⟨writeBytes b.mem b.pos s, b.pos + (s.length + 1),
            b.free - (s.length + 1), b.len⟩) := by
      unfold CBuffer.write_str
      rw [if_neg (by rw [hs0]; exact Bool.false_ne_true), if_neg hfits]
    obtain ⟨b2, hrun, hpos, hfree2, hlen, hmlen, hfr1, hfr2, hfr3, hfacts⟩ :=
      ih ⟨writeBytes (writeBytes b.mem b.pos s) slot (le8 b.pos),
          b.pos + (s.length + 1), b.free - (s.length + 1), b.len⟩ (slot + 8)
        (fun s2 hs2 => hnul s2 (List.mem_cons_of_mem s hs2))
        (by dsimp only; omega)
        (by dsimp only; omega)
        (by dsimp only; rw [writeBytes_length, writeBytes_length]; omega)
    dsimp only at hpos hfree2 hlen hmlen hfr1 hfr2 hfr3 hfacts
    rw [writeBytes_length, writeBytes_length] at hmlen
    refine ⟨b2, ?_, ?_, ?_, hlen, hmlen, ?_, ?_, ?_, ?_⟩
    · simp only [writeStrsLoop, hws]
      exact hrun
    · simp only [strsSize]
      omega
    · simp only [strsSize]
      omega
    · intro j hj
      rw [hfr1 j (by omega)]
      rw [getD_writeBytes_lo (le8 b.pos) _ hj]
      exact getD_writeBytes_lo s b.mem (by omega)
    · intro j hj1 hj2
      simp only [List.length_cons] at hj1
      rw [hfr2 j (by omega) (by omega)]
      rw [getD_writeBytes_hi (le8 b.pos) _ (by rw [le8_length]; omega)]
      exact getD_writeBytes_lo s b.mem (by omega)
    · intro j hj
      simp only [strsSize] at hj
      rw [hfr3 j (by omega)]
      rw [getD_writeBytes_hi (le8 b.pos) _ (by rw [le8_length]; omega)]
      exact getD_writeBytes_hi s b.mem (by omega)
    · intro i hi
      cases i with
      | zero =>
        refine ⟨?_, ?_, ?_⟩
        · simp only [Nat.mul_zero, Nat.add_zero, List.take_zero, strsSize]
          have ht : readBytes b2.mem slot 8
              = readBytes (writeBytes (writeBytes b.mem b.pos s) slot (le8 b.pos)) slot 8 :=
            readBytes_congr slot 8 (fun t ht2 => hfr1 (slot + t) (by omega))
          have h2 := readBytes_writeBytes (le8 b.pos) (writeBytes b.mem b.pos s) slot
            (by rw [le8_length, writeBytes_length]; omega)
          rw [le8_length] at h2
          rw [ht, h2]
        · simp only [List.take_zero, strsSize, Nat.add_zero, List.getD_cons_zero]
          have ht : readBytes b2.mem b.pos s.length
              = readBytes (writeBytes (writeBytes b.mem b.pos s) slot (le8 b.pos)) b.pos s.length :=
            readBytes_congr b.pos s.length (fun t ht2 => hfr2 (b.pos + t) (by omega) (by omega))
          have ht2 : readBytes (writeBytes (writeBytes b.mem b.pos s) slot (le8 b.pos)) b.pos s.length
              = readBytes (writeBytes b.mem b.pos s) b.pos s.length :=
            readBytes_congr b.pos s.length
              (fun t ht3 => getD_writeBytes_hi (le8 b.pos) _ (by rw [le8_length]; omega))
          rw [ht, ht2]
          exact readBytes_writeBytes s b.mem b.pos (by omega)
        · simp only [List.take_zero, strsSize, Nat.add_zero, List.getD_cons_zero]
          rw [hfr2 (b.pos + s.length) (by omega) (by omega)]
          rw [getD_writeBytes_hi (le8 b.pos) _ (by rw [le8_length]; omega)]
          exact getD_writeBytes_hi s b.mem (by omega)
      | succ i =>
        simp only [List.length_cons] at hi
        have hi2 : i < ss.length := by omega
        refine ⟨?_, ?_, ?_⟩
        · simp only [List.take_succ_cons, strsSize]
          rw [show slot + 8 * (i + 1) = slot + 8 + 8 * i from by ring]
          rw [(hfacts i hi2).1]
          congr 1
          omega
        · simp only [List.take_succ_cons, strsSize, List.getD_cons_succ]
          rw [show b.pos + (s.length + 1 + strsSize (List.take i ss))
              = b.pos + (s.length + 1) + strsSize (List.take i ss) from by ring]
          exact (hfacts i hi2).2.1
        · simp only [List.take_succ_cons, strsSize, List.getD_cons_succ]
          rw [show b.pos + (s.length + 1 + strsSize (List.take i ss))
              = b.pos + (s.length + 1) + strsSize (List.take i ss) from by ring]
          rw [(hfacts i hi2).2.2]
          rw [getD_writeBytes_hi (le8 b.pos) _ (by rw [le8_length]; omega)]
          exact getD_writeBytes_hi s b.mem (by omega)

lemma writeAddrsLoop_spec :
    ∀ (os : List (List Nat)) (w : Nat) (b : CBuffer) (slot : Nat),
      (∀ o ∈ os, o.length = w) →
      w * os.length ≤ b.free →
      slot + 8 * os.length ≤ b.pos →
      b.pos + b.free ≤ b.mem.length →
      ∃ b2, writeAddrsLoop b slot w os = some b2 ∧
        b2.pos = b.pos + w * os.length ∧
        b2.free + w * os.length = b.free ∧
        b2.len = b.len ∧
        b2.mem.length = b.mem.length ∧
        (∀ j, j < slot → b2.mem.getD j 0 = b.mem.getD j 0) ∧
        (∀ j, slot + 8 * os.length ≤ j → j < b.pos → b2.mem.getD j 0 = b.mem.getD j 0) ∧
        (∀ j, b.pos + w * os.length ≤ j → b2.mem.getD j 0 = b.mem.getD j 0) ∧
        (∀ i, i < os.length →
          readBytes b2.mem (slot + 8 * i) 8 = le8 (b.pos + w * i) ∧
          readBytes b2.mem (b.pos + w * i) w = os.getD i []) := by
  intro os
  induction os with
  | nil =>
    intro w b slot hlen hfree hslot hmem
    refine ⟨b, rfl, by simp, by simp, rfl, rfl,
      fun j _ => rfl, fun j _ _ => rfl, fun j _ => rfl, fun i hi => by simp at hi⟩
  | cons o os ih =>
    intro w b slot hlen hfree hslot hmem
    rw [List.length_cons, Nat.mul_succ] at hfree
    simp only [List.length_cons] at hslot
    have hw : o.length = w := hlen o (List.mem_cons_self o os)
    have hslot8 : slot + 8 * os.length + 8 ≤ b.pos := by omega
    have hres : b.reserve w = some (b.pos, ⟨b.mem, b.pos + w, b.free - w, b.len⟩) := by
      unfold CBuffer.reserve
      rw [if_neg (by omega)]
    obtain ⟨b2, hrun, hpos, hfree2, hlen2, hmlen, hfr1, hfr2, hfr3, hfacts⟩ :=
      ih w ⟨writeBytes (writeBytes b.mem b.pos o) slot (le8 b.pos),
            b.pos + w, b.free - w, b.len⟩ (slot + 8)
        (fun o2 ho2 => hlen o2 (List.mem_cons_of_mem o ho2))
        (by dsimp only; omega)
        (by dsimp only; omega)
        (by dsimp only; rw [writeBytes_length, writeBytes_length]; omega)
    dsimp only at hpos hfree2 hlen2 hmlen hfr1 hfr2 hfr3 hfacts
    rw [writeBytes_length, writeBytes_length] at hmlen
    refine ⟨b2, ?_, ?_, ?_, hlen2, hmlen, ?_, ?_, ?_, ?_⟩
    · simp only [writeAddrsLoop, hres]
      exact hrun
    · rw [List.length_cons, Nat.mul_succ]
      omega
    · rw [List.length_cons, Nat.mul_succ]
      omega
    · intro j hj
      rw [hfr1 j (by omega)]
      rw [getD_writeBytes_lo (le8 b.pos) _ hj]
      exact getD_writeBytes_lo o b.mem (by omega)
    · intro j hj1 hj2
      simp only [List.length_cons] at hj1
      rw [hfr2 j (by omega) (by omega)]
      rw [getD_writeBytes_hi (le8 b.pos) _ (by rw [le8_length]; omega)]
      exact getD_writeBytes_lo o b.mem (by omega)
    · intro j hj
      rw [List.length_cons, Nat.mul_succ] at hj
      rw [hfr3 j (by omega)]
      rw [getD_writeBytes_hi (le8 b.pos) _ (by rw [le8_length]; omega)]
      exact getD_writeBytes_hi o b.mem (by rw [hw]; omega)
    · intro i hi
      cases i with
      | zero =>
        refine ⟨?_, ?_⟩
        · simp only [Nat.mul_zero, Nat.add_zero]
          have ht : readBytes b2.mem slot 8
              = readBytes (writeBytes (writeBytes b.mem b.pos o) slot (le8 b.pos)) slot 8 :=
            readBytes_congr slot 8 (fun t ht2 => hfr1 (slot + t) (by omega))
          have h2 := readBytes_writeBytes (le8 b.pos) (writeBytes b.mem b.pos o) slot
            (by rw [le8_length, writeBytes_length]; omega)
          rw [le8_length] at h2
          rw [ht, h2]
        · simp only [Nat.mul_zero, Nat.add_zero, List.getD_cons_zero]
          have ht : readBytes b2.mem b.pos w
              = readBytes (writeBytes (writeBytes b.mem b.pos o) slot (le8 b.pos)) b.pos w :=
            readBytes_congr b.pos w (fun t ht2 => hfr2 (b.pos + t) (by omega) (by omega))
          have ht2 : readBytes (writeBytes (writeBytes b.mem b.pos o) slot (le8 b.pos)) b.pos w
              = readBytes (writeBytes b.mem b.pos o) b.pos w :=
            readBytes_congr b.pos w
              (fun t ht3 => getD_writeBytes_hi (le8 b.pos) _ (by rw [le8_length]; omega))
          have h3 := readBytes_writeBytes o b.mem b.pos (by rw [hw]; omega)
          rw [hw] at h3
          rw [ht, ht2, h3]
      | succ i =>
        simp only [List.length_cons] at hi
        have hi2 : i < os.length := by omega
        refine ⟨?_, ?_⟩
        · rw [show slot + 8 * (i + 1) = slot + 8 + 8 * i from by ring]
          rw [(hfacts i hi2).1]
          congr 1
          rw [Nat.mul_succ]
          omega
        · rw [Nat.mul_succ, show b.pos + (w * i + w) = b.pos + w + w * i from by ring,
            List.getD_cons_succ]
          exact (hfacts i hi2).2

lemma to_c_hostent_spec (h : Host) (m : List Nat)
    (hn : h.name.contains 0 = false)
    (ha : ∀ s ∈ h.aliases, s.contains 0 = false)
    (hL : h.requiredSize ≤ m.length) :
    ∃ he b2, marshalPass h m = some (he, b2) ∧
      he.name = 0 ∧
      he.h_aliases = h.aliasArrOff ∧
      he.h_addrtype = h.addresses.family ∧
      he.h_length = (h.addresses.width : Int) ∧
      he.h_addr_list = h.addrArrOff ∧
      b2.mem.length = m.length ∧
      readBytes b2.mem 0 h.name.length = h.name ∧
      b2.mem.getD h.name.length 0 = 0 ∧
      (∀ i, i < h.aliases.length →
        readBytes b2.mem (h.aliasArrOff + 8 * i) 8
          = le8 (h.aliasBytesOff + strsSize (h.aliases.take i)) ∧
        readBytes b2.mem (h.aliasBytesOff + strsSize (h.aliases.take i))
            (h.aliases.getD i []).length = h.aliases.getD i [] ∧
        b2.mem.getD (h.aliasBytesOff + strsSize (h.aliases.take i)
            + (h.aliases.getD i []).length) 0 = 0) ∧
      readBytes b2.mem (h.aliasArrOff + 8 * h.aliases.length) 8 = List.replicate 8 0 ∧
      (∀ i, i < h.addresses.count →
        readBytes b2.mem (h.addrArrOff + 8 * i) 8
          = le8 (h.addrBytesOff + h.addresses.width * i) ∧
        readBytes b2.mem (h.addrBytesOff + h.addresses.width * i) h.addresses.width
          = h.addresses.octs.getD i []) ∧
      readBytes b2.mem (h.addrArrOff + 8 * h.addresses.count) 8 = List.replicate 8 0 := by
  have hRS : h.requiredSize
      = h.name.length + 1 + 8 * (h.aliases.length + 1) + strsSize h.aliases
        + 8 * (h.addresses.count + 1) + h.addresses.width * h.addresses.count := rfl
  rw [hRS] at hL
  have hcnt : h.addresses.octs.length = h.addresses.count := octs_length h.addresses
  have hstep1 : ((CBuffer.new m).clear).write_str h.name
      = some (0, ⟨writeBytes (List.replicate m.length 0) 0 h.name,
          h.name.length + 1, m.length - (h.name.length + 1), m.length⟩) := by
    show (CBuffer.mk (List.replicate m.length 0) 0 m.length m.length).write_str h.name = _
    unfold CBuffer.write_str
    rw [if_neg (by rw [hn]; exact Bool.false_ne_true), if_neg (by dsimp only; omega)]
    dsimp only
    simp only [Nat.zero_add]
  obtain ⟨c2, hloop, c2pos, c2free, c2len, c2mlen, c2fr1, c2fr2, c2fr3, c2facts⟩ :=
    writeStrsLoop_spec h.aliases
      ⟨writeBytes (List.replicate m.length 0) 0 h.name,
        h.name.length + 1 + 8 * (h.aliases.length + 1),
        m.length - (h.name.length + 1) - 8 * (h.aliases.length + 1), m.length⟩
      (h.name.length + 1) ha
      (by dsimp only; omega)
      (by dsimp only; omega)
      (by dsimp only; rw [writeBytes_length, List.length_replicate]; omega)
  dsimp only at c2pos c2free c2len c2mlen c2fr1 c2fr2 c2fr3 c2facts
  rw [writeBytes_length, List.length_replicate] at c2mlen
  have hzero : ∀ j, h.name.length ≤ j →
      (writeBytes (List.replicate m.length 0) 0 h.name).getD j 0 = 0 := by
    intro j hj
    rw [getD_writeBytes_hi h.name _ (by omega), getD_replicate_zero]
  have hstep2 : (CBuffer.mk (writeBytes (List.replicate m.length 0) 0 h.name)
        (h.name.length + 1) (m.length - (h.name.length + 1)) m.length).write_strs h.aliases
      = some (h.name.length + 1,
          ⟨writeBytes c2.mem (h.name.length + 1 + 8 * h.aliases.length) (List.replicate 8 0),
           c2.pos, c2.free, c2.len⟩) := by
    unfold CBuffer.write_strs
    simp only [ptrSize]
    have hres1 : (CBuffer.mk (writeBytes (List.replicate m.length 0) 0 h.name)
        (h.name.length + 1) (m.length - (h.name.length + 1)) m.length).reserve
          (8 * (h.aliases.length + 1))
        = some (h.name.length + 1,
            ⟨writeBytes (List.replicate m.length 0) 0 h.name,
             h.name.length + 1 + 8 * (h.aliases.length + 1),
             m.length - (h.name.length + 1) - 8 * (h.aliases.length + 1), m.length⟩) := by
      unfold CBuffer.reserve
      rw [if_neg (by dsimp only; omega)]
    simp only [hres1, hloop]
  have hres2 : (CBuffer.mk
        (writeBytes c2.mem (h.name.length + 1 + 8 * h.aliases.length) (List.replicate 8 0))
        c2.pos c2.free c2.len).reserve (8 * (h.addresses.count + 1))
      = some (c2.pos,
          ⟨writeBytes c2.mem (h.name.length + 1 + 8 * h.aliases.length) (List.replicate 8 0),
           c2.pos + 8 * (h.addresses.count + 1),
           c2.free - 8 * (h.addresses.count + 1), c2.len⟩) := by
    unfold CBuffer.reserve
    rw [if_neg (by dsimp only; omega)]
  obtain ⟨c4, hrun4, c4pos, c4free, c4len, c4mlen, c4fr1, c4fr2, c4fr3, c4facts⟩ :=
    writeAddrsLoop_spec h.addresses.octs h.addresses.width
      ⟨writeBytes c2.mem (h.name.length + 1 + 8 * h.aliases.length) (List.replicate 8 0),
       c2.pos + 8 * (h.addresses.count + 1),
       c2.free - 8 * (h.addresses.count + 1), c2.len⟩ c2.pos
      (octs_width h.addresses)
      (by dsimp only; rw [hcnt]; omega)
      (by dsimp only; rw [hcnt]; omega)
      (by dsimp only; rw [writeBytes_length, c2mlen]; omega)
  dsimp only at c4pos c4free c4len c4mlen c4fr1 c4fr2 c4fr3 c4facts
  rw [hcnt] at c4pos c4free c4fr2 c4fr3 c4facts
  rw [writeBytes_length, c2mlen] at c4mlen
  have hmain : marshalPass h m
      = some (⟨0, h.name.length + 1, h.addresses.family, (h.addresses.width : Int), c2.pos⟩,
          ⟨writeBytes c4.mem (c2.pos + 8 * h.addresses.count) [0], c4.pos, c4.free, c4.len⟩) := by
    unfold marshalPass Host.to_c_hostent
    simp only [ptrSize]
    simp only [hstep1, hstep2, hres2, hrun4]
  refine ⟨_, _, hmain, rfl, rfl, rfl, rfl, ?_, ?_, ?_, ?_, ?_, ?_, ?_, ?_⟩
  · show c2.pos = h.addrArrOff
    rw [c2pos]
    rfl
  · show (writeBytes c4.mem (c2.pos + 8 * h.addresses.count) [0]).length = m.length
    rw [writeBytes_length, c4mlen]
  · show readBytes (writeBytes c4.mem (c2.pos + 8 * h.addresses.count) [0]) 0 h.name.length
      = h.name
    have ht : readBytes (writeBytes c4.mem (c2.pos + 8 * h.addresses.count) [0])
          0 h.name.length
        = readBytes (writeBytes (List.replicate m.length 0) 0 h.name) 0 h.name.length := by
      refine readBytes_congr 0 h.name.length fun t ht => ?_
      simp only [Nat.zero_add]
      rw [getD_writeBytes_lo [0] _ (by omega)]
      rw [c4fr1 _ (by omega)]
      rw [getD_writeBytes_lo (List.replicate 8 0) _ (by omega)]
      exact c2fr1 t (by omega)
    rw [ht]
    exact readBytes_writeBytes h.name (List.replicate m.length 0) 0
      (by rw [List.length_replicate]; omega)
  · show (writeBytes c4.mem (c2.pos + 8 * h.addresses.count) [0]).getD h.name.length 0 = 0
    rw [getD_writeBytes_lo [0] _ (by omega)]
    rw [c4fr1 _ (by omega)]
    rw [getD_writeBytes_lo (List.replicate 8 0) _ (by omega)]
    rw [c2fr1 h.name.length (by omega)]
    exact hzero h.name.length (le_refl _)
  · intro i hi
    have hsti : strsSize (h.aliases.take i) + (h.aliases.getD i []).length + 1
        ≤ strsSize h.aliases := by
      have h1 := strsSize_take_succ h.aliases i hi
      have h2 := strsSize_take_le h.aliases (i + 1)
      omega
    refine ⟨?_, ?_, ?_⟩
    · show readBytes (writeBytes c4.mem (c2.pos + 8 * h.addresses.count) [0])
          (h.name.length + 1 + 8 * i) 8
        = le8 (h.name.length + 1 + 8 * (h.aliases.length + 1) + strsSize (h.aliases.take i))
      have ht : readBytes (writeBytes c4.mem (c2.pos + 8 * h.addresses.count) [0])
            (h.name.length + 1 + 8 * i) 8
          = readBytes c2.mem (h.name.length + 1 + 8 * i) 8 := by
        refine readBytes_congr _ 8 fun t ht => ?_
        rw [getD_writeBytes_lo [0] _ (by omega)]
        rw [c4fr1 _ (by omega)]
        exact getD_writeBytes_lo (List.replicate 8 0) _ (by omega)
      rw [ht]
      exact (c2facts i hi).1
    · show readBytes (writeBytes c4.mem (c2.pos + 8 * h.addresses.count) [0])
          (h.name.length + 1 + 8 * (h.aliases.length + 1) + strsSize (h.aliases.take i))
          (h.aliases.getD i []).length
        = h.aliases.getD i []
      have ht : readBytes (writeBytes c4.mem (c2.pos + 8 * h.addresses.count) [0])
            (h.name.length + 1 + 8 * (h.aliases.length + 1) + strsSize (h.aliases.take i))
            (h.aliases.getD i []).length
          = readBytes c2.mem
            (h.name.length + 1 + 8 * (h.aliases.length + 1) + strsSize (h.aliases.take i))
            (h.aliases.getD i []).length := by
        refine readBytes_congr _ _ fun t ht => ?_
        rw [getD_writeBytes_lo [0] _ (by omega)]
        rw [c4fr1 _ (by omega)]
        exact getD_writeBytes_hi (List.replicate 8 0) _
          (by rw [List.length_replicate]; omega)
      rw [ht]
      exact (c2facts i hi).2.1
    · show (writeBytes c4.mem (c2.pos + 8 * h.addresses.count) [0]).getD
          (h.name.length + 1 + 8 * (h.aliases.length + 1) + strsSize (h.aliases.take i)
            + (h.aliases.getD i []).length) 0 = 0
      rw [getD_writeBytes_lo [0] _ (by omega)]
      rw [c4fr1 _ (by omega)]
      rw [getD_writeBytes_hi (List.replicate 8 0) _ (by rw [List.length_replicate]; omega)]
      rw [(c2facts i hi).2.2]
      exact hzero _ (by omega)
  · show readBytes (writeBytes c4.mem (c2.pos + 8 * h.addresses.count) [0])
        (h.name.length + 1 + 8 * h.aliases.length) 8 = List.replicate 8 0
    have ht : readBytes (writeBytes c4.mem (c2.pos + 8 * h.addresses.count) [0])
          (h.name.length + 1 + 8 * h.aliases.length) 8
        = readBytes (writeBytes c2.mem (h.name.length + 1 + 8 * h.aliases.length)
            (List.replicate 8 0)) (h.name.length + 1 + 8 * h.aliases.length) 8 := by
      refine readBytes_congr _ 8 fun t ht => ?_
      rw [getD_writeBytes_lo [0] _ (by omega)]
      exact c4fr1 _ (by omega)
    rw [ht]
    have h2 := readBytes_writeBytes (List.replicate 8 0) c2.mem
      (h.name.length + 1 + 8 * h.aliases.length) (by rw [List.length_replicate, c2mlen]; omega)
    rw [List.length_replicate] at h2
    exact h2
  · intro i hi
    have hwmul : h.addresses.width * (i + 1) ≤ h.addresses.width * h.addresses.count :=
      Nat.mul_le_mul_left _ (by omega)
    rw [Nat.mul_succ] at hwmul
    have hADA : h.addrArrOff = c2.pos := by rw [c2pos]; rfl
    have hADB : h.addrBytesOff = c2.pos + 8 * (h.addresses.count + 1) := by rw [c2pos]; rfl
    rw [hADA, hADB]

    refine ⟨?_, ?_⟩
    · have ht : readBytes (writeBytes c4.mem (c2.pos + 8 * h.addresses.count) [0])
            (c2.pos + 8 * i) 8
          = readBytes c4.mem (c2.pos + 8 * i) 8 := by
        refine readBytes_congr _ 8 fun t ht => ?_
        exact getD_writeBytes_lo [0] _ (by omega)
      show readBytes (writeBytes c4.mem (c2.pos + 8 * h.addresses.count) [0])
            (c2.pos + 8 * i) 8
          = le8 (c2.pos + 8 * (h.addresses.count + 1) + h.addresses.width * i)
      rw [ht]
      exact (c4facts i hi).1
    · show readBytes (writeBytes c4.mem (c2.pos + 8 * h.addresses.count) [0])
            (c2.pos + 8 * (h.addresses.count + 1) + h.addresses.width * i) h.addresses.width
          = h.addresses.octs.getD i []
      have ht : readBytes (writeBytes c4.mem (c2.pos + 8 * h.addresses.count) [0])
            (c2.pos + 8 * (h.addresses.count + 1) + h.addresses.width * i) h.addresses.width
          = readBytes c4.mem
            (c2.pos + 8 * (h.addresses.count + 1) + h.addresses.width * i)
            h.addresses.width := by
        refine readBytes_congr _ _ fun t ht => ?_
        exact getD_writeBytes_hi [0] _ (by rw [List.length_singleton]; omega)
      rw [ht]
      exact (c4facts i hi).2
  · have hADA : h.addrArrOff = c2.pos := by rw [c2pos]; rfl
    rw [hADA]
    show readBytes (writeBytes c4.mem (c2.pos + 8 * h.addresses.count) [0])
        (c2.pos + 8 * h.addresses.count) 8 = List.replicate 8 0
    refine readBytes_zero_of _ _ 8 fun t ht => ?_
    by_cases ht0 : t = 0
    · subst ht0
      rw [Nat.add_zero]
      rw [getD_writeBytes_in [0] _ (le_refl _) (by rw [List.length_singleton]; omega)
        (by rw [List.length_singleton]; omega)]
      simp
    · rw [getD_writeBytes_hi [0] _ (by rw [List.length_singleton]; omega)]
      rw [c4fr2 _ (by omega) (by omega)]
      rw [getD_writeBytes_hi (List.replicate 8 0) _ (by rw [List.length_replicate]; omega)]
      rw [c2fr3 _ (by omega)]
      exact hzero _ (by omega)

/-! ## Claim theorems: enumeration cursor -/

/-- C3: open on [A, B, C] followed by three next calls yields A, B, C in
order, a fourth next signals exhaustion, and after close plus a fresh open
every item a later next can return is an element of the new queue — no
discarded item of the old queue can resurface. -/
theorem iterator_enumeration_order (T : Type) (A B C : T)
    (it itp : NssIterator T) (newItems : List T) (n : Nat) :
    ((it.open' [A, B, C]).next = some (some A, ⟨some [B, C]⟩) ∧
     (NssIterator.mk (some [B, C])).next = some (some B, ⟨some [C]⟩) ∧
     (NssIterator.mk (some [C])).next = some (some C, ⟨some []⟩) ∧
     (NssIterator.mk (some ([] : List T))).next = some (none, ⟨some []⟩)) ∧
    (∀ x, x ∈ runNexts T n ((itp.close).open' newItems) → x ∈ newItems) := by
  refine ⟨⟨rfl, rfl, rfl, rfl⟩, fun x hx => ?_⟩
  exact runNexts_mem T n newItems x hx

/-- Witness for C3 at T = Nat: the first pop of an opened [1, 2, 3] queue
returns 1, and an item returned after close plus re-open on [7] is in [7]. -/
theorem iterator_enumeration_order_witness :
    ((NssIterator.mk (none : Option (List Nat))).open' [1, 2, 3]).next
      = some (some 1, ⟨some [2, 3]⟩) ∧ 7 ∈ [7] :=
  ⟨(iterator_enumeration_order Nat 1 2 3 ⟨none⟩ ⟨some [5]⟩ [7] 1).1.1,
   (iterator_enumeration_order Nat 1 2 3 ⟨none⟩ ⟨some [5]⟩ [7] 1).2 7 (by decide)⟩

/-- C8: next on an open non-empty cursor pops the front and stays open;
next on an open empty cursor reports exhaustion and leaves the cursor
unchanged; next on a closed cursor is a panic (modelled as none). -/
theorem iterator_next_semantics (T : Type) (it : NssIterator T) :
    (∀ x q, it.items = some (x :: q) → it.next = some (some x, ⟨some q⟩)) ∧
    (it.items = some [] → it.next = some (none, it)) ∧
    (it.items = none → it.next = none) := by
  obtain ⟨items⟩ := it
  refine ⟨fun x q h => ?_, fun h => ?_, fun h => ?_⟩
  · simp only at h
    subst h
    rfl
  · simp only at h
    subst h
    rfl
  · simp only at h
    subst h
    rfl

/-- Witness for C8 at T = Nat: a pop from [4, 5], an exhausted next on the
empty open queue, and a panicking next on the closed cursor. -/
theorem iterator_next_semantics_witness :
    (NssIterator.mk (some [4, 5]) : NssIterator Nat).next = some (some 4, ⟨some [5]⟩) ∧
    (NssIterator.mk (some ([] : List Nat))).next = some (none, ⟨some []⟩) ∧
    (NssIterator.mk (none : Option (List Nat))).next = none :=
  ⟨(iterator_next_semantics Nat ⟨some [4, 5]⟩).1 4 [5] rfl,
   (iterator_next_semantics Nat ⟨some []⟩).2.1 rfl,
   (iterator_next_semantics Nat ⟨none⟩).2.2 rfl⟩

/-! ## Claim theorems: Arena Writer accounting -/

/-- C4: each successful Arena Writer operation consumes no more than the
remaining capacity (the guarded subtraction never underflows), advances the
cursor by exactly the bytes it wrote and decrements the capacity by the same
amount; and along every operation sequence on a writer bound to a region of
length L, cursor plus remaining capacity equals L after every step. -/
theorem cbuffer_op_invariant :
    (∀ (b : CBuffer) (op : BufOp) (b2 : CBuffer), op.apply b = some b2 →
      op.written ≤ b.free ∧ b2.pos = b.pos + op.written ∧
      b2.free + op.written = b.free ∧ b2.len = b.len) ∧
    (∀ (m : List Nat) (ops : List BufOp) (b2 : CBuffer),
      runOps ops (CBuffer.new m) = some b2 →
      b2.pos + b2.free = b2.len ∧ b2.len = m.length) := by
  refine ⟨fun b op b2 h => bufOp_deltas h, fun m ops b2 h => ?_⟩
  have := runOps_inv ops (CBuffer.new m) b2 (by simp [CBuffer.new]) h
  simpa [CBuffer.new] using this

/-- Witness for C4: reserving 2 bytes of a fresh 3-byte writer stays within
capacity, and the invariant holds after running that operation. -/
theorem cbuffer_op_invariant_witness :
    (BufOp.reserveOp 2).written ≤ (CBuffer.new [5, 5, 5]).free ∧
    (CBuffer.mk [5, 5, 5] 2 1 3).pos + (CBuffer.mk [5, 5, 5] 2 1 3).free
      = (CBuffer.mk [5, 5, 5] 2 1 3).len :=
  ⟨(cbuffer_op_invariant.1 (CBuffer.new [5, 5, 5]) (.reserveOp 2)
      ⟨[5, 5, 5], 2, 1, 3⟩ (by decide)).1,
   (cbuffer_op_invariant.2 [5, 5, 5] [.reserveOp 2]
      ⟨[5, 5, 5], 2, 1, 3⟩ (by decide)).1⟩

/-! ## Claim theorems: entry points -/

/-- C6: a raw-address lookup whose length/format pair is neither
(4, AF_INET) nor (16, AF_INET6) returns the NotFound code without panicking
and without marshalling anything into the caller buffer. -/
theorem gethostbyaddr_family_mismatch (hook : IpAddr → Option Host)
    (addr : List Nat) (len : Nat) (format : Int) (m : List Nat)
    (h1 : ¬(len = 4 ∧ format = AF_INET)) (h2 : ¬(len = 16 ∧ format = AF_INET6)) :
    gethostbyaddr_r hook addr len format m = some (NssStatus.NotFound.to_c, none) := by
  unfold gethostbyaddr_r
  rw [if_neg h1, if_neg h2]

/-- Witness for C6: a 4-byte address tagged with the IPv6 family constant is
rejected as NotFound. -/
theorem gethostbyaddr_family_mismatch_witness :
    gethostbyaddr_r (fun _ => none) [1, 2, 3, 4] 4 AF_INET6 [9, 9]
      = some (NssStatus.NotFound.to_c, none) :=
  gethostbyaddr_family_mismatch (fun _ => none) [1, 2, 3, 4] 4 AF_INET6 [9, 9]
    (by decide) (by decide)

/-- C7: under AF_UNSPEC (and a well-formed name) the outcome is the outcome
for the IPv4 hook result whenever that hook call produces a record — the
IPv6 result cannot influence it — and exactly when the IPv4 call produces
nothing, the outcome is the outcome for the IPv6 hook result. -/
theorem gethostbyname2_unspec_fallback (hook : List Nat → AddressFamily → Option Host)
    (name : List Nat) (m : List Nat) (hv : isValidUtf8 name = true) :
    (∀ r, hook name .IPv4 = some r →
      gethostbyname2_r hook name AF_UNSPEC m = hostLookupResult (some r) m) ∧
    (hook name .IPv4 = none →
      gethostbyname2_r hook name AF_UNSPEC m = hostLookupResult (hook name .IPv6) m) := by
  constructor
  · intro r hr
    unfold gethostbyname2_r
    rw [if_pos hv, if_neg (by decide), if_neg (by decide), if_pos rfl, hr]
  · intro hr
    unfold gethostbyname2_r
    rw [if_pos hv, if_neg (by decide), if_neg (by decide), if_pos rfl, hr]

/-- Witness for C7: with a hook that answers every IPv4 query with the
sample record, the AF_UNSPEC lookup of the name "h" produces exactly the
outcome of marshalling that record. -/
theorem gethostbyname2_unspec_fallback_witness :
    isValidUtf8 [104] = true ∧
    gethostbyname2_r demoHook [104] AF_UNSPEC demoRegion
      = hostLookupResult (some demoHost) demoRegion :=
  ⟨by decide,
   (gethostbyname2_unspec_fallback demoHook [104] demoRegion (by decide)).1 demoHost rfl⟩

/-- C10: the plain name lookup entry point is definitionally the
family-parameterised entry point invoked with AF_UNSPEC, for every hook,
name, and caller buffer. -/
theorem gethostbyname_delegates (hook : List Nat → AddressFamily → Option Host)
    (name : List Nat) (m : List Nat) :
    gethostbyname_r hook name m = gethostbyname2_r hook name AF_UNSPEC m := rfl

/-! ## Claim theorems: marshalling passes -/

/-- C9: a clear-then-marshal pass is a function of the record and the region
length only, so repeating it on the buffer a first pass produced yields the
same header and byte-identical buffer contents. -/
theorem marshal_idempotent (h : Host) (m : List Nat) (he1 : CHost) (b1 : CBuffer)
    (hp : marshalPass h m = some (he1, b1)) :
    marshalPass h b1.mem = some (he1, b1) := by
  have hlen : b1.mem.length = m.length := by
    have hd := to_c_hostent_deltas hp
    simpa [CBuffer.new, CBuffer.clear] using hd.2
  have hsame : (CBuffer.new b1.mem).clear = (CBuffer.new m).clear := by
    simp [CBuffer.new, CBuffer.clear, hlen]
  unfold marshalPass
  rw [hsame]
  exact hp

/-- Witness for C9: the second clear-then-marshal pass of the sample record
reproduces the first pass exactly. -/
theorem marshal_idempotent_witness :
    marshalPass demoHost demoBuf.mem = some (demoHE, demoBuf) :=
  marshal_idempotent demoHost demoRegion demoHE demoBuf (by decide)

/-! ## Claim theorems: marshalled layout -/

/-- C1 counterexample: marshalling the sample record, the address pointer
array lands at offset 11 and its first slot points at offset 27, where the
raw address bytes were written — the raw address bytes sit after the
address pointer array, not before it as the claimed order requires. -/
theorem addr_bytes_after_array_cex :
    demoMarshal.isSome = true ∧
    demoHE.h_addr_list = 11 ∧
    de8 (readBytes demoBuf.mem demoHE.h_addr_list 8) = 27 ∧
    readBytes demoBuf.mem 27 4 = [10, 0, 0, 1] ∧
    demoHE.h_addr_list < de8 (readBytes demoBuf.mem demoHE.h_addr_list 8) := by decide

/-- C1 as amended: the arena is written in the order primary-name bytes
(NUL-terminated), alias pointer array (with NUL sentinel slot), each
alias's NUL-terminated bytes, address pointer array (with NUL sentinel
slot), and then the raw address bytes of each address; each region starts
exactly where the previous one ends. -/
theorem to_c_hostent_layout_order (h : Host) (m : List Nat)
    (hn : h.name.contains 0 = false)
    (ha : ∀ s ∈ h.aliases, s.contains 0 = false)
    (hL : h.requiredSize ≤ m.length) :
    (marshalPass h m).isSome = true ∧
    (∀ he b2, marshalPass h m = some (he, b2) →
      he.name = 0 ∧
      readBytes b2.mem 0 (h.name.length + 1) = h.name ++ [0] ∧
      he.h_aliases = h.name.length + 1 ∧
      h.aliasBytesOff = he.h_aliases + 8 * (h.aliases.length + 1) ∧
      (∀ i, i < h.aliases.length →
        readBytes b2.mem (h.aliasBytesOff + strsSize (h.aliases.take i))
          ((h.aliases.getD i []).length + 1) = h.aliases.getD i [] ++ [0]) ∧
      readBytes b2.mem (he.h_aliases + 8 * h.aliases.length) 8 = List.replicate 8 0 ∧
      he.h_addr_list = h.aliasBytesOff + strsSize h.aliases ∧
      h.addrBytesOff = he.h_addr_list + 8 * (h.addresses.count + 1) ∧
      (∀ i, i < h.addresses.count →
        readBytes b2.mem (h.addrBytesOff + h.addresses.width * i) h.addresses.width
          = h.addresses.octs.getD i []) ∧
      readBytes b2.mem (he.h_addr_list + 8 * h.addresses.count) 8 = List.replicate 8 0) := by
  obtain ⟨he0, b20, hmain, hname, hal, htype, hlen2, hlist, hmlen, hnm, hterm,
    halias, hsent, haddr, hasent⟩ := to_c_hostent_spec h m hn ha hL
  constructor
  · rw [hmain]; rfl
  · intro he b2 heq
    rw [hmain] at heq
    injection heq with heq2
    rw [Prod.mk.injEq] at heq2
    obtain ⟨rfl, rfl⟩ := heq2
    refine ⟨hname, ?_, ?_, ?_, ?_, ?_, hlist, ?_, fun i hi => (haddr i hi).2, ?_⟩
    · rw [readBytes_snoc, Nat.zero_add, hnm, hterm]
    · rw [hal]; rfl
    · rw [hal]; rfl
    · intro i hi
      rw [readBytes_snoc, (halias i hi).2.1, (halias i hi).2.2]
    · rw [hal]
      exact hsent
    · rw [hlist]; rfl
    · rw [hlist]
      exact hasent

/-- Witness for the amended C1 on the sample record with an alias: the
name span, the alias span after the alias pointer array, and the raw
address bytes after the address pointer array all read back as written. -/
theorem to_c_hostent_layout_order_witness :
    (marshalPass demoHost2 demoRegion2).isSome = true ∧
    readBytes demoBuf2.mem 0 2 = [97] ++ [0] ∧
    readBytes demoBuf2.mem (demoHost2.aliasBytesOff + strsSize (demoHost2.aliases.take 0)) 4
      = [119, 119, 119] ++ [0] ∧
    readBytes demoBuf2.mem (demoHost2.addrBytesOff + demoHost2.addresses.width * 0) 4
      = [10, 0, 0, 1] := by
  have h := to_c_hostent_layout_order demoHost2 demoRegion2 (by decide) (by decide) (by decide)
  have hh := h.2 demoHE2 demoBuf2 (by decide)
  exact ⟨h.1, hh.2.1, hh.2.2.2.2.1 0 (by decide), hh.2.2.2.2.2.2.2.2.1 0 (by decide)⟩

/-- C2: marshalling a record with k aliases and n single-family addresses
into a sufficiently large cleared buffer yields k+1 alias pointer slots
whose slot k is entirely zero, n+1 address pointer slots whose slot n is
entirely zero, and every non-sentinel slot of either array decodes to a
nonzero offset whose pointed-to span lies inside the bound region. -/
theorem to_c_hostent_pointer_arrays (h : Host) (m : List Nat)
    (hn : h.name.contains 0 = false)
    (ha : ∀ s ∈ h.aliases, s.contains 0 = false)
    (hL : h.requiredSize ≤ m.length)
    (h64 : m.length ≤ 2 ^ 64) :
    (marshalPass h m).isSome = true ∧
    (∀ he b2, marshalPass h m = some (he, b2) →
      (∀ i, i < h.aliases.length →
        0 < de8 (readBytes b2.mem (he.h_aliases + 8 * i) 8) ∧
        de8 (readBytes b2.mem (he.h_aliases + 8 * i) 8)
          + ((h.aliases.getD i []).length + 1) ≤ m.length) ∧
      readBytes b2.mem (he.h_aliases + 8 * h.aliases.length) 8 = List.replicate 8 0 ∧
      (∀ i, i < h.addresses.count →
        0 < de8 (readBytes b2.mem (he.h_addr_list + 8 * i) 8) ∧
        de8 (readBytes b2.mem (he.h_addr_list + 8 * i) 8)
          + h.addresses.width ≤ m.length) ∧
      readBytes b2.mem (he.h_addr_list + 8 * h.addresses.count) 8 = List.replicate 8 0) := by
  obtain ⟨he0, b20, hmain, hname, hal, htype, hlen2, hlist, hmlen, hnm, hterm,
    halias, hsent, haddr, hasent⟩ := to_c_hostent_spec h m hn ha hL
  have hRS : h.requiredSize
      = h.name.length + 1 + 8 * (h.aliases.length + 1) + strsSize h.aliases
        + 8 * (h.addresses.count + 1) + h.addresses.width * h.addresses.count := rfl
  have hABO : h.aliasBytesOff = h.name.length + 1 + 8 * (h.aliases.length + 1) := rfl
  have hABY : h.addrBytesOff
      = h.name.length + 1 + 8 * (h.aliases.length + 1) + strsSize h.aliases
        + 8 * (h.addresses.count + 1) := rfl
  constructor
  · rw [hmain]; rfl
  · intro he b2 heq
    rw [hmain] at heq
    injection heq with heq2
    rw [Prod.mk.injEq] at heq2
    obtain ⟨rfl, rfl⟩ := heq2
    refine ⟨fun i hi => ?_, ?_, fun i hi => ?_, ?_⟩
    · have h1 := strsSize_take_succ h.aliases i hi
      have h2 := strsSize_take_le h.aliases (i + 1)
      rw [hal, (halias i hi).1]
      rw [de8_le8 (by omega)]
      refine ⟨by omega, by omega⟩
    · rw [hal]
      exact hsent
    · have hwmul : h.addresses.width * (i + 1) ≤ h.addresses.width * h.addresses.count :=
        Nat.mul_le_mul_left _ (by omega)
      rw [Nat.mul_succ] at hwmul
      have hwpos : 0 < h.addresses.width := by
        cases h.addresses <;> simp [Addresses.width]
      rw [hlist, (haddr i hi).1]
      rw [de8_le8 (by omega)]
      refine ⟨by omega, by omega⟩
    · rw [hlist]
      exact hasent

/-- Witness for C2 on the sample record with an alias: the first alias slot
and first address slot decode to nonzero in-bounds offsets, and both
sentinel slots are entirely zero. -/
theorem to_c_hostent_pointer_arrays_witness :
    0 < de8 (readBytes demoBuf2.mem (demoHE2.h_aliases + 8 * 0) 8) ∧
    de8 (readBytes demoBuf2.mem (demoHE2.h_aliases + 8 * 0) 8) + 4 ≤ demoRegion2.length ∧
    readBytes demoBuf2.mem (demoHE2.h_aliases + 8 * 1) 8 = List.replicate 8 0 ∧
    readBytes demoBuf2.mem (demoHE2.h_addr_list + 8 * 1) 8 = List.replicate 8 0 := by
  have h := to_c_hostent_pointer_arrays demoHost2 demoRegion2
    (by decide) (by decide) (by decide) (by decide)
  have hh := h.2 demoHE2 demoBuf2 (by decide)
  exact ⟨(hh.1 0 (by decide)).1, (hh.1 0 (by decide)).2, hh.2.1, hh.2.2.2⟩

/-! ## Claim theorems: write_str -/

/-- C5 counterexample: writing the 1-byte string [97] into a writer over the
unclear region [7, 7, 7, 7] succeeds, yet its reserved 2-byte span reads
back as [97, 7] — the terminator byte keeps its old value, so the stored
sequence is not NUL-terminated as the claim states. -/
theorem write_str_no_terminator_cex :
    (CBuffer.new [7, 7, 7, 7]).write_str [97]
      = some (0, ⟨[97, 7, 7, 7], 2, 2, 4⟩) ∧
    readBytes [97, 7, 7, 7] 0 2 = [97, 7] ∧ [97, 7] ≠ [97, 0] := by decide

/-- C5 as amended: write_str fails exactly on an interior NUL or a capacity
shortfall; on success it returns the span start, advances over a span of
exactly length + 1 bytes, copies exactly the string bytes, and leaves the
final span byte untouched — so the span is NUL-terminated whenever that byte
was zero beforehand (as after a clear). -/
theorem write_str_spec_amended (b : CBuffer) (s : List Nat) :
    (b.write_str s = none ↔ s.contains 0 = true ∨ b.free < s.length + 1) ∧
    (∀ p b2, b.write_str s = some (p, b2) →
      p = b.pos ∧
      b2.pos = b.pos + (s.length + 1) ∧
      b2.free + (s.length + 1) = b.free ∧
      b2.mem = writeBytes b.mem b.pos s ∧
      (b.pos + s.length + 1 ≤ b.mem.length →
        readBytes b2.mem b.pos s.length = s ∧
        b2.mem.getD (b.pos + s.length) 0 = b.mem.getD (b.pos + s.length) 0 ∧
        (b.mem.getD (b.pos + s.length) 0 = 0 →
          readBytes b2.mem b.pos (s.length + 1) = s ++ [0]))) := by
  constructor
  · unfold CBuffer.write_str
    by_cases h1 : s.contains 0 = true
    · rw [if_pos h1]
      exact ⟨fun _ => Or.inl h1, fun _ => rfl⟩
    · rw [if_neg h1]
      by_cases h2 : b.free < s.length + 1
      · rw [if_pos h2]
        exact ⟨fun _ => Or.inr h2, fun _ => rfl⟩
      · rw [if_neg h2]
        constructor
        · intro hcon; cases hcon
        · intro hcon
          rcases hcon with hc | hc
          · exact absurd hc h1
          · exact absurd hc h2
  · intro p b2 hw
    obtain ⟨hp, hpos, _, hfree, _, _, hmem, _⟩ := write_str_deltas hw
    refine ⟨hp, hpos, hfree, hmem, fun hbound => ?_⟩
    rw [hmem]
    refine ⟨readBytes_writeBytes s b.mem b.pos (by omega), ?_, ?_⟩
    · exact getD_writeBytes_hi s b.mem (by omega)
    · intro hz
      rw [readBytes_snoc, readBytes_writeBytes s b.mem b.pos (by omega),
        getD_writeBytes_hi s b.mem (by omega), hz]

/-- Witness for C5: the failure condition is exact on a sample buffer, and
writing [97, 98] into a cleared 4-byte region yields the NUL-terminated
span [97, 98, 0]. -/
theorem write_str_spec_amended_witness :
    ((CBuffer.new [0, 0, 0, 0]).write_str [97, 0] = none ↔
      ([97, 0].contains 0 = true ∨ (CBuffer.new [0, 0, 0, 0]).free < [97, 0].length + 1)) ∧
    readBytes (writeBytes [0, 0, 0, 0] 0 [97, 98]) 0 3 = [97, 98] ++ [0] := by
  refine ⟨(write_str_spec_amended (CBuffer.new [0, 0, 0, 0]) [97, 0]).1, ?_⟩
  have h := (write_str_spec_amended (CBuffer.new [0, 0, 0, 0]) [97, 98]).2 0
    ⟨writeBytes [0, 0, 0, 0] 0 [97, 98], 3, 1, 4⟩ (by decide)
  exact (h.2.2.2.2 (by decide)).2.2 (by decide)

end LibnssProof
